import Mathlib

/-!
Verification of the hyper-bot quoting engine (src/adapter.py, src/maker_bot.py):
a shallow embedding of the quantization logic of `ExchangeAdapter.place_limit`,
the acknowledgement classification of `MakerBot._extract_status_and_oid`,
the order-id validity predicate `MakerBot._valid_oid`, the spread gate and the
TTL eviction of `MakerBot.loop`.  Machine floats are embedded as exact
rationals; Python's `f"{x:.Nf}"` formatting is embedded as round-half-to-even
at N fractional digits.
-/

namespace HyperBot

/-- Embedding of the Python/JSON values that flow through the bot:
`None`, booleans, integers, non-integer numbers, strings, lists and dicts.
Python treats `bool` as a subtype of `int`; we keep a separate constructor and
mirror that subtyping in the functions below. -/
inductive JVal where
  | jnull
  | jbool (b : Bool)
  | jint (n : ℤ)
  | jnum (q : ℚ)
  | jstr (s : String)
  | jarr (elems : List JVal)
  | jobj (fields : List (String × JVal))

/-- Dict lookup: the value stored under key `k`, if present. -/
def lookup? (fs : List (String × JVal)) (k : String) : Option JVal :=
  match fs with
  | [] => none
  | (k', v) :: rest => if k' = k then some v else lookup? rest k

/-- Python's `.get(k)` cannot distinguish a key mapped to `None` from a missing
key; collapse a stored `jnull` to `none`. -/
def denull : Option JVal → Option JVal
  | some .jnull => none
  | o => o

/-- Python's `d.get(k, default)`. -/
def getD (fs : List (String × JVal)) (k : String) (d : JVal) : JVal :=
  (lookup? fs k).getD d

/-- View a value as a dict; any other shape makes Python's `.get`/`in` raise,
which the surrounding `try` of `_extract_status_and_oid` turns into an error. -/
def asObj? : JVal → Option (List (String × JVal))
  | .jobj fs => some fs
  | _ => none

/-- Embeds `MakerBot._extract_oid_like` (maker_bot.py:128-135): a dict yields its
`"oid"` entry when the key is present (even when it is `None`), an int, bool
or string is returned as-is, anything else yields the fallback. -/
def extract_oid_like (c : JVal) (fb : Option JVal) : Option JVal :=
  match c with
  | .jobj fs =>
      match lookup? fs "oid" with
      | some v => denull (some v)
      | none => fb
  | .jint n => some (.jint n)
  | .jbool b => some (.jbool b)
  | .jstr s => some (.jstr s)
  | _ => fb

/-- The "order is now open" key variants scanned by
`_extract_status_and_oid` (maker_bot.py:164). -/
def RESTING_KEYS : List String :=
  ["resting", "open", "opened", "placed", "working", "live", "accepted"]

/-- The `for key in (...)` loop of maker_bot.py:164-168: the first listed key
present in the first status entry whose extracted oid is not `None`. -/
def find_resting (sfs : List (String × JVal)) : List String → Option JVal
  | [] => none
  | k :: ks =>
      match lookup? sfs k with
      | some v =>
          match extract_oid_like v (denull (lookup? sfs "oid")) with
          | some oid => some oid
          | none => find_resting sfs ks
      | none => find_resting sfs ks

/-- Classification of the first status entry, maker_bot.py:152-175.
A non-dict entry makes every Python branch raise or fall through to error. -/
def classify_first (st0 : JVal) : String × Option JVal :=
  match asObj? st0 with
  | none => ("error", none)
  | some sfs =>
      if (lookup? sfs "error").isSome then ("error", none)
      else
        match lookup? sfs "filled" with
        | some fv => ("filled", extract_oid_like fv (denull (lookup? sfs "oid")))
        | none =>
            match find_resting sfs RESTING_KEYS with
            | some oid => ("resting", some oid)
            | none =>
                match denull (lookup? sfs "oid") with
                | some oid => ("resting", some oid)
                | none => ("error", none)

/-- Embeds `MakerBot._extract_status_and_oid` (maker_bot.py:137-177): outer status
must be the string `"ok"`, then `response.data.statuses` must be a non-empty
list; its first entry is classified.  Every shape on which the Python body
would raise is caught by its `try` and mapped to `("error", None)`. -/
def extract_status_and_oid (res : JVal) : String × Option JVal :=
  match asObj? res with
  | none => ("error", none)
  | some rfs =>
      match lookup? rfs "status" with
      | some (.jstr st) =>
          if st = "ok" then
            match asObj? (getD rfs "response" (.jobj [])) with
            | none => ("error", none)
            | some respFs =>
                match asObj? (getD respFs "data" (.jobj [])) with
                | none => ("error", none)
                | some dataFs =>
                    match getD dataFs "statuses" (.jarr []) with
                    | .jarr (st0 :: _) => classify_first st0
                    | _ => ("error", none)
          else ("error", none)
      | _ => ("error", none)

/-- The whitespace set of Python's `str.strip()`. -/
def pyWs (c : Char) : Bool :=
  c = ' ' ∨ c = '\t' ∨ c = '\n' ∨ c = '\r' ∨ c = '\x0B' ∨ c = '\x0C'

/-- Python's `str.strip()`: drop leading and trailing whitespace. -/
def pyStrip (s : String) : String :=
  ⟨((s.data.dropWhile pyWs).reverse.dropWhile pyWs).reverse⟩

/-- ASCII lower-casing of one character, as Python's `str.lower()` does on
the ASCII identifiers that appear here. -/
def pyLowerChar (c : Char) : Char :=
  if 'A' ≤ c ∧ c ≤ 'Z' then Char.ofNat (c.toNat + 32) else c

/-- Python's `str.lower()`. -/
def pyLower (s : String) : String := ⟨s.data.map pyLowerChar⟩

/-- Embeds `MakerBot._valid_oid` (maker_bot.py:179-187): an int is valid iff positive
(Python booleans are ints: `True` is `1`), a string is valid iff its
stripped, lowercased form (`oid.strip().lower()`) is non-empty and differs
from `"filled"`, everything else is invalid. -/
def valid_oid : JVal → Bool
  | .jint n => decide (0 < n)
  | .jbool b => b
  | .jstr s => decide (pyLower (pyStrip s) ≠ "" ∧ pyLower (pyStrip s) ≠ "filled")
  | _ => false

/-- The numeric value a Python dict-key comparison sees: ints, bools and
floats compare on one numeric line (`True == 1` in Python). -/
def keyNum : JVal → Option ℚ
  | .jint n => some (n : ℚ)
  | .jbool b => some (if b then 1 else 0)
  | .jnum q => some q
  | _ => none

/-- Python equality as used by the resting dict's keys (`self.resting`):
numbers compare numerically, strings as strings, `None` to itself; lists and
dicts are unhashable in Python and can never be dict keys, so they compare
equal to nothing here. -/
def keyEq (a b : JVal) : Bool :=
  match keyNum a, keyNum b with
  | some x, some y => x == y
  | _, _ =>
      match a, b with
      | .jstr s, .jstr t => s == t
      | .jnull, .jnull => true
      | _, _ => false

/-! ## Quantizer: `ExchangeAdapter.place_limit` (adapter.py:178-203)

Machine floats are embedded as exact rationals.  Python's `f"{x:.Nf}"`
formatting rounds to `N` fractional digits with ties to even; `rne` below is
that rounding on ℚ. -/

/-- Round to the nearest integer, ties to even (the rounding of Python's
fixed-point string formatting). -/
def rne (q : ℚ) : ℤ :=
  if Int.fract q < 1/2 then ⌊q⌋
  else if 1/2 < Int.fract q then ⌊q⌋ + 1
  else if ⌊q⌋ % 2 = 0 then ⌊q⌋ else ⌊q⌋ + 1

/-- Embeds `px_dec = max(0, min(8 - sz_dec, 8))` (adapter.py:188). -/
def px_dec_for (d : ℕ) : ℕ := (max 0 (min (8 - (d : ℤ)) 8)).toNat

/-- Embeds `step_sz = 10 ** (-sz_dec)` (adapter.py:191). -/
def step_of (d : ℕ) : ℚ := 1 / 10 ^ d

/-- Embeds `size_q = max(step_sz, math.floor(sz / step_sz) * step_sz)`
(adapter.py:192): floor `sz` to the step grid, with a floor of one step. -/
def trunc_size (d : ℕ) (sz : ℚ) : ℚ :=
  max (step_of d) ((⌊sz / step_of d⌋ : ℚ) * step_of d)

/-- Embeds the price rounding `limit_px` (adapter.py:193): round the raw
price to `px_dec` fractional digits, ties to even. -/
def quant_px (d : ℕ) (px : ℚ) : ℚ :=
  (rne (px * 10 ^ px_dec_for d) : ℚ) / 10 ^ px_dec_for d

/-- Embeds `SPOT_MIN_NOTIONAL = 10.0` (adapter.py:22). -/
def SPOT_MIN_NOTIONAL : ℚ := 10

/-- The minimum-notional override (adapter.py:196-200):
`size_needed = SPOT_MIN_NOTIONAL / max(limit_px, 1e-9)`,
`mult = math.ceil(size_needed / step_sz)`, `size_q = mult * step_sz`. -/
def bump_size (d : ℕ) (p : ℚ) : ℚ :=
  (⌈(SPOT_MIN_NOTIONAL / max p (1 / 10 ^ 9)) / step_of d⌉ : ℚ) * step_of d

/-- Embeds the final size clamp (adapter.py:203): final clamp of the
size to 8 fractional digits. -/
def round8 (q : ℚ) : ℚ := (rne (q * 10 ^ 8) : ℚ) / 10 ^ 8

/-- The size before the final 8-digit clamp: the notional check
`if limit_px * size_q < SPOT_MIN_NOTIONAL` (adapter.py:196) selects either
the bumped size or the truncated size. -/
def size_sel (d : ℕ) (sz px : ℚ) : ℚ :=
  if quant_px d px * trunc_size d sz < SPOT_MIN_NOTIONAL then
    bump_size d (quant_px d px)
  else trunc_size d sz

/-- The quantized `(size, price)` pair `ExchangeAdapter.place_limit` sends to
the exchange (adapter.py:186-203), for a market whose base token has
`szDecimals = d`. -/
def place_limit_quant (d : ℕ) (sz px : ℚ) : ℚ × ℚ :=
  (round8 (size_sel d sz px), quant_px d px)

/-! ## The decision loop: `MakerBot.loop` (maker_bot.py:207-281) -/

/-- Embeds `MakerBot._spread_pct` (maker_bot.py:123-125): percentage spread
`(ask - bid) / bid * 100`, or 0 when either side is falsy
(`if bid and ask`). -/
def spread_pct (bid ask : ℚ) : ℚ :=
  if bid ≠ 0 ∧ ask ≠ 0 then (ask - bid) / bid * 100 else 0

/-- Round a nonzero rational to the nearest IEEE binary64 value (ties to
even): scale by the unit in the last place `2^(e-52)` of the binade
`2^e ≤ |x| < 2^(e+1)`, round to an integer, and scale back.  This models
Python's `float(...)` parsing and each arithmetic operation's result in the
normal range (the values handled here are far from subnormal or overflow). -/
def fl64 (x : ℚ) : ℚ :=
  if x = 0 then 0
  else (rne (x / (2:ℚ) ^ (Int.log 2 |x| - 52)) : ℚ) * (2:ℚ) ^ (Int.log 2 |x| - 52)

/-- Embeds `MakerBot._spread_pct` under IEEE binary64 semantics: `bid` and
`ask` arrive as doubles, and each of the three operations of
`(ask - bid) / bid * 100` rounds its exact result to the nearest double
(100 is exactly representable). -/
def spread_pct_fp (bid ask : ℚ) : ℚ :=
  if bid ≠ 0 ∧ ask ≠ 0 then fl64 (fl64 (fl64 (ask - bid) / bid) * 100) else 0

/-- Embeds `MakerBot._place_limit_usd` (maker_bot.py:196-205), viewed from its
return value: the string `"filled"` for a filled placement, the oid for a
resting placement with a valid oid, `None` otherwise.  The gateway
acknowledgement is the input. -/
def place_limit_result (ack : JVal) : Option JVal :=
  match extract_status_and_oid ack with
  | ("filled", _) => some (.jstr "filled")
  | ("resting", some oid) => if valid_oid oid then some oid else none
  | _ => none

/-- The resting-order table `self.resting : Dict[Any, float]`
(oid ↦ placement time), as an association list with Python-dict key
semantics and unique keys. -/
abbrev Table := List (JVal × ℚ)

/-- Python dict assignment `self.resting[oid] = now`: update the value of an
existing (Python-equal) key, keeping the stored key object, else append a
new entry. -/
def upsert (m : Table) (k : JVal) (v : ℚ) : Table :=
  if m.any (fun p => keyEq p.1 k) then
    m.map (fun p => if keyEq p.1 k then (p.1, v) else p)
  else m ++ [(k, v)]

/-- maker_bot.py:242-245: `if self._valid_oid(oid): self.resting[oid] = now`
(`_valid_oid(None)` is false, so a `None` result inserts nothing). -/
def insert_if_valid (m : Table) (o : Option JVal) (now : ℚ) : Table :=
  match o with
  | some oid => if valid_oid oid then upsert m oid now else m
  | none => m

/-- Python's `self.resting.pop(oid, None)`. -/
def eraseKey (m : Table) (k : JVal) : Table :=
  m.filter (fun p => !keyEq p.1 k)

/-- maker_bot.py:248: the keys whose age reached the TTL,
`[oid for oid, t0 in list(self.resting.items()) if now - t0 >= ttl]`. -/
def to_cancel (ttl now : ℚ) (m : Table) : List JVal :=
  (m.filter (fun p => decide (ttl ≤ now - p.2))).map Prod.fst

/-- The TTL sweep (maker_bot.py:247-258): pop every collected key from the
table — the `finally` does this regardless of the cancel call's outcome —
and attempt a cancel for each collected oid that passes `_valid_oid`.
Returns the new table and the list of oids whose cancel was attempted. -/
def ttl_sweep (ttl now : ℚ) (m : Table) : Table × List JVal :=
  ((to_cancel ttl now m).foldl eraseKey m,
   (to_cancel ttl now m).filter (fun o => valid_oid o))

/-- The per-iteration inputs of `MakerBot.loop`: the snapshot's best prices
(`None` when a side is absent), the wall-clock time, and the gateway
acknowledgements for the buy and sell submissions. -/
structure StepIn where
  bid : Option ℚ
  ask : Option ℚ
  now : ℚ
  ackBuy : JVal
  ackSell : JVal

/-- Which branch one loop iteration took: idle on an absent/zero book side,
idle below the minimum spread, or quote. -/
inductive StepBranch where
  | noBook
  | belowSpread
  | quoted
  deriving DecidableEq

/-- The observable outcome of one loop iteration: the new resting table, the
oids whose cancel was attempted, and the branch taken. -/
structure StepOut where
  resting : Table
  cancelled : List JVal
  branch : StepBranch

/-- One iteration of `MakerBot.loop` (maker_bot.py:207-274): idle when a book
side is absent or falsy (line 212) or when the spread is strictly below the
minimum (line 217); otherwise submit both quotes, and in maker-only mode
record valid resting oids and run the TTL sweep (lines 240-258), while in
taker mode cancel any valid oid immediately without touching the table
(lines 259-267). -/
def loop_step (minSpread ttl : ℚ) (makerOnly : Bool) (m : Table) (i : StepIn) :
    StepOut :=
  match i.bid, i.ask with
  | some b, some a =>
      if b = 0 ∨ a = 0 then ⟨m, [], .noBook⟩
      else if spread_pct b a < minSpread then ⟨m, [], .belowSpread⟩
      else
        let oidB := place_limit_result i.ackBuy
        let oidS := place_limit_result i.ackSell
        if makerOnly then
          let m2 := insert_if_valid (insert_if_valid m oidB i.now) oidS i.now
          ⟨(ttl_sweep ttl i.now m2).1, (ttl_sweep ttl i.now m2).2, .quoted⟩
        else
          ⟨m, (oidB.toList ++ oidS.toList).filter (fun o => valid_oid o), .quoted⟩
  | _, _ => ⟨m, [], .noBook⟩

/-- An iteration whose book-presence or spread gate fails (so the loop
`continue`s before quoting). -/
def gate_fails (minSpread : ℚ) (i : StepIn) : Prop :=
  i.bid = none ∨ i.ask = none ∨ i.bid = some 0 ∨ i.ask = some 0 ∨
    (∃ b a, i.bid = some b ∧ i.ask = some a ∧ spread_pct b a < minSpread)

/-- The resting table after a sequence of loop iterations. -/
def run_resting (minSpread ttl : ℚ) (makerOnly : Bool) (m : Table) :
    List StepIn → Table
  | [] => m
  | i :: rest =>
      run_resting minSpread ttl makerOnly
        (loop_step minSpread ttl makerOnly m i).resting rest

/-! ### Arithmetic facts about the quantizer -/

theorem step_pos (d : ℕ) : 0 < step_of d := by
  unfold step_of; positivity

theorem px_dec_le_8 (d : ℕ) : px_dec_for d ≤ 8 := by
  unfold px_dec_for; omega

theorem rne_coe_int (z : ℤ) : rne (z : ℚ) = z := by
  unfold rne
  have h : Int.fract ((z : ℚ)) < 1/2 := by
    rw [Int.fract_intCast]; norm_num
  rw [if_pos h, Int.floor_intCast]

theorem abs_rne_sub_le (q : ℚ) : |(rne q : ℚ) - q| ≤ 1/2 := by
  have h0 : 0 ≤ Int.fract q := Int.fract_nonneg q
  have h1 : Int.fract q < 1 := Int.fract_lt_one q
  have hfl : (⌊q⌋ : ℚ) = q - Int.fract q := by unfold Int.fract; ring
  unfold rne
  split_ifs with hc1 hc2 hc3 <;> push_neg at hc1 <;>
    rw [abs_le] <;> push_cast <;> constructor <;> linarith

theorem quant_px_idem (d : ℕ) (px : ℚ) : quant_px d (quant_px d px) = quant_px d px := by
  have hne : (10:ℚ) ^ px_dec_for d ≠ 0 := pow_ne_zero _ (by norm_num)
  unfold quant_px
  rw [div_mul_cancel₀ _ hne, rne_coe_int]

theorem quant_px_lb (d : ℕ) (px : ℚ) (h : 0 < quant_px d px) :
    1/10^8 ≤ quant_px d px := by
  have hpow : (0:ℚ) < 10 ^ px_dec_for d := by positivity
  have hm : (0:ℚ) < ((rne (px * 10 ^ px_dec_for d) : ℤ) : ℚ) := by
    rcases div_pos_iff.mp h with ⟨hm, _⟩ | ⟨_, hD⟩
    · exact hm
    · linarith
  have hm1 : (1:ℚ) ≤ ((rne (px * 10 ^ px_dec_for d) : ℤ) : ℚ) := by
    have : (0:ℤ) < rne (px * 10 ^ px_dec_for d) := by exact_mod_cast hm
    exact_mod_cast this
  calc (1:ℚ)/10^8 ≤ 1/10 ^ px_dec_for d := by
        apply one_div_le_one_div_of_le hpow
        exact pow_le_pow_right₀ (by norm_num) (px_dec_le_8 d)
    _ ≤ quant_px d px := by
        unfold quant_px
        exact (div_le_div_iff_of_pos_right hpow).mpr hm1

theorem trunc_size_pos (d : ℕ) (sz : ℚ) : 0 < trunc_size d sz :=
  lt_of_lt_of_le (step_pos d) (le_max_left _ _)

theorem exists_mul_trunc (d : ℕ) (sz : ℚ) :
    ∃ k : ℤ, 1 ≤ k ∧ trunc_size d sz = (k : ℚ) * step_of d := by
  refine ⟨max 1 ⌊sz / step_of d⌋, le_max_left _ _, ?_⟩
  have hstep := step_pos d
  unfold trunc_size
  rw [Int.cast_max, max_mul_of_nonneg _ _ (le_of_lt hstep)]
  norm_num

theorem trunc_size_of_mul (d : ℕ) (k : ℤ) (hk : 1 ≤ k) :
    trunc_size d ((k : ℚ) * step_of d) = (k : ℚ) * step_of d := by
  have hstep := step_pos d
  unfold trunc_size
  rw [mul_div_assoc, div_self (ne_of_gt hstep), mul_one, Int.floor_intCast]
  exact max_eq_right (le_mul_of_one_le_left (le_of_lt hstep) (by exact_mod_cast hk))

theorem exists_mul_bump (d : ℕ) (p : ℚ) :
    ∃ k : ℤ, 1 ≤ k ∧ bump_size d p = (k : ℚ) * step_of d := by
  refine ⟨⌈(SPOT_MIN_NOTIONAL / max p (1/10^9)) / step_of d⌉, ?_, rfl⟩
  have hpos : 0 < (SPOT_MIN_NOTIONAL / max p (1/10^9)) / step_of d := by
    apply div_pos (div_pos (by norm_num [SPOT_MIN_NOTIONAL]) ?_) (step_pos d)
    exact lt_max_of_lt_right (by norm_num)
  have := Int.ceil_pos.mpr hpos
  omega

theorem bump_notional (d : ℕ) (p : ℚ) (hp : 1/10^9 < p) :
    SPOT_MIN_NOTIONAL ≤ p * bump_size d p := by
  have hp0 : 0 < p := lt_trans (by norm_num) hp
  have hstep := step_pos d
  unfold bump_size
  rw [max_eq_left (le_of_lt hp)]
  have hle : (SPOT_MIN_NOTIONAL / p) / step_of d ≤
      ((⌈(SPOT_MIN_NOTIONAL / p) / step_of d⌉ : ℤ) : ℚ) := Int.le_ceil _
  have h2 : SPOT_MIN_NOTIONAL / p ≤
      ((⌈(SPOT_MIN_NOTIONAL / p) / step_of d⌉ : ℤ) : ℚ) * step_of d :=
    (div_le_iff₀ hstep).mp hle
  calc SPOT_MIN_NOTIONAL = p * (SPOT_MIN_NOTIONAL / p) := by field_simp
    _ ≤ p * (((⌈(SPOT_MIN_NOTIONAL / p) / step_of d⌉ : ℤ) : ℚ) * step_of d) :=
        mul_le_mul_of_nonneg_left h2 (le_of_lt hp0)

theorem bump_min (d : ℕ) (p : ℚ) (hp : 1/10^9 < p) (k : ℤ)
    (h : SPOT_MIN_NOTIONAL ≤ p * ((k : ℚ) * step_of d)) :
    bump_size d p ≤ (k : ℚ) * step_of d := by
  have hp0 : 0 < p := lt_trans (by norm_num) hp
  have hstep := step_pos d
  unfold bump_size
  rw [max_eq_left (le_of_lt hp)]
  have h1 : SPOT_MIN_NOTIONAL / p ≤ (k : ℚ) * step_of d :=
    (div_le_iff₀ hp0).mpr (by rw [mul_comm]; exact h)
  have h2 : (SPOT_MIN_NOTIONAL / p) / step_of d ≤ (k : ℚ) := by
    rw [div_le_iff₀ hstep]
    exact h1
  have h3 : ⌈(SPOT_MIN_NOTIONAL / p) / step_of d⌉ ≤ k := Int.ceil_le.mpr h2
  exact mul_le_mul_of_nonneg_right (by exact_mod_cast h3) (le_of_lt hstep)

theorem round8_mul_step (d : ℕ) (hd : d ≤ 8) (k : ℤ) :
    round8 ((k : ℚ) * step_of d) = (k : ℚ) * step_of d := by
  unfold round8 step_of
  have h1 : ((k:ℚ) * (1/10^d)) * 10^8 = ((k * 10^(8-d) : ℤ) : ℚ) := by
    push_cast
    rw [mul_one_div, div_mul_eq_mul_div, eq_comm, eq_div_iff (by positivity),
      mul_assoc, ← pow_add, Nat.sub_add_cancel hd]
  rw [h1, rne_coe_int]
  push_cast
  rw [mul_one_div, div_eq_div_iff (by positivity) (by positivity),
    mul_assoc, ← pow_add, Nat.sub_add_cancel hd]

theorem exists_mul_sel (d : ℕ) (sz px : ℚ) :
    ∃ k : ℤ, 1 ≤ k ∧ size_sel d sz px = (k : ℚ) * step_of d := by
  unfold size_sel
  split_ifs
  · exact exists_mul_bump d (quant_px d px)
  · exact exists_mul_trunc d sz

theorem fst_eq_size_sel (d : ℕ) (hd : d ≤ 8) (sz px : ℚ) :
    (place_limit_quant d sz px).1 = size_sel d sz px := by
  obtain ⟨k, hk, he⟩ := exists_mul_sel d sz px
  show round8 (size_sel d sz px) = size_sel d sz px
  rw [he, round8_mul_step d hd k]

theorem notional_of_pos (d : ℕ) (hd : d ≤ 8) (sz px : ℚ)
    (hp : 0 < quant_px d px) :
    SPOT_MIN_NOTIONAL ≤ quant_px d px * (place_limit_quant d sz px).1 := by
  have hgt : 1/10^9 < quant_px d px :=
    lt_of_lt_of_le (by norm_num) (quant_px_lb d px hp)
  rw [fst_eq_size_sel d hd]
  unfold size_sel
  split_ifs with hc
  · exact bump_notional d _ hgt
  · push_neg at hc; exact hc

/-! ### Claims C1-C4 -/

/-- C1, counterexample: the claim says the quantized price is always ≤ the
raw input price (truncation toward zero).  On the code, `f"{px:.{px_dec}f}"`
rounds to nearest: for `szDecimals = 6` (so `priceDecimals = 2`) and raw
price `0.159`, the emitted price is `0.16 > 0.159`. -/
theorem price_truncation_cex :
    159/1000 < (place_limit_quant 6 1 (159/1000)).2 := by
  have hpd : px_dec_for 6 = 2 := by decide
  have hfl : ⌊(159/1000 : ℚ) * 10 ^ (2:ℕ)⌋ = 15 := by
    rw [Int.floor_eq_iff]
    norm_num
  have hfr : 1/2 < Int.fract ((159/1000 : ℚ) * 10 ^ (2:ℕ)) := by
    unfold Int.fract
    rw [hfl]
    norm_num
  have hr : rne ((159/1000 : ℚ) * 10 ^ (2:ℕ)) = 16 := by
    unfold rne
    rw [if_neg (by linarith), if_pos hfr, hfl]
    norm_num
  show (159/1000 : ℚ) < quant_px 6 (159/1000)
  unfold quant_px
  rw [hpd, hr]
  norm_num

/-- C1 (amended): the price emitted by `place_limit` is an integer multiple
of `10^(-priceDecimals)` with `priceDecimals = clamp(8 - d, 0, 8)` (so it has
at most `priceDecimals` fractional digits), and it is the *nearest* such
multiple, within half a price step of the raw input — rounding to nearest
(ties to even), not truncation toward zero, so it can exceed the raw price. -/
theorem price_quantization_rounds_to_nearest (d : ℕ) (sz px : ℚ) :
    (∃ k : ℤ, (place_limit_quant d sz px).2 = (k : ℚ) / 10 ^ px_dec_for d) ∧
    |(place_limit_quant d sz px).2 - px| ≤ 1 / (2 * 10 ^ px_dec_for d) := by
  constructor
  · exact ⟨rne (px * 10 ^ px_dec_for d), rfl⟩
  · show |quant_px d px - px| ≤ _
    have hpow : (0:ℚ) < 10 ^ px_dec_for d := by positivity
    have h := abs_rne_sub_le (px * 10 ^ px_dec_for d)
    unfold quant_px
    have heq : (rne (px * 10 ^ px_dec_for d) : ℚ) / 10 ^ px_dec_for d - px
        = ((rne (px * 10 ^ px_dec_for d) : ℚ) - px * 10 ^ px_dec_for d)
            / 10 ^ px_dec_for d := by
      field_simp
      ring
    rw [heq, abs_div, abs_of_pos hpow]
    calc |(rne (px * 10 ^ px_dec_for d) : ℚ) - px * 10 ^ px_dec_for d|
          / 10 ^ px_dec_for d
        ≤ (1/2) / 10 ^ px_dec_for d := (div_le_div_iff_of_pos_right hpow).mpr h
      _ = 1 / (2 * 10 ^ px_dec_for d) := by rw [div_div]

/-- C2: for every market with `szDecimals = d ≤ 8` and every input, if the
quantized price is positive then the quantized notional `price * size` is at
least 10; and when the truncated size falls short of the floor, the emitted
size is the least multiple of `step = 10^(-d)` whose notional at the
quantized price clears the floor. -/
theorem min_notional_postcondition (d : ℕ) (hd : d ≤ 8) (sz px : ℚ)
    (hp : 0 < (place_limit_quant d sz px).2) :
    10 ≤ (place_limit_quant d sz px).2 * (place_limit_quant d sz px).1 ∧
    (quant_px d px * trunc_size d sz < 10 →
      ∀ k : ℤ, 10 ≤ (place_limit_quant d sz px).2 * ((k : ℚ) * (1/10^d)) →
        (place_limit_quant d sz px).1 ≤ (k : ℚ) * (1/10^d)) := by
  have hp' : 0 < quant_px d px := hp
  have hgt : 1/10^9 < quant_px d px :=
    lt_of_lt_of_le (by norm_num) (quant_px_lb d px hp')
  refine ⟨notional_of_pos d hd sz px hp', ?_⟩
  intro hc k hk
  have hc' : quant_px d px * trunc_size d sz < SPOT_MIN_NOTIONAL := hc
  have hfst : (place_limit_quant d sz px).1 = bump_size d (quant_px d px) := by
    rw [fst_eq_size_sel d hd]
    unfold size_sel
    rw [if_pos hc']
  rw [hfst]
  exact bump_min d _ hgt k hk

/-- Evaluation helper: the quantized price of raw price 5 on a
`szDecimals = 6` market is 5 itself. -/
theorem quant_px_6_5 : quant_px 6 5 = 5 := by
  have hpd : px_dec_for 6 = 2 := by decide
  unfold quant_px
  rw [hpd, show (5:ℚ) * 10 ^ (2:ℕ) = ((500:ℤ) : ℚ) by norm_num, rne_coe_int]
  norm_num

/-- C2, witness: on the `szDecimals = 6` market, raw size 1 at raw price 5
(notional 5 < 10) is bumped so that the emitted notional clears the floor. -/
theorem min_notional_postcondition_witness :
    10 ≤ (place_limit_quant 6 1 5).2 * (place_limit_quant 6 1 5).1 :=
  (min_notional_postcondition 6 (by norm_num) 1 5
    (by show (0:ℚ) < quant_px 6 5; rw [quant_px_6_5]; norm_num)).1

/-- C3: for every market with `szDecimals = d ≤ 8` and positive raw size, the
emitted size is a positive integer multiple of `10^(-d)` — in particular it
is never zero. -/
theorem step_compliance (d : ℕ) (hd : d ≤ 8) (sz px : ℚ) (_hsz : 0 < sz) :
    0 < (place_limit_quant d sz px).1 ∧
    ∃ k : ℤ, 1 ≤ k ∧ (place_limit_quant d sz px).1 = (k : ℚ) * (1/10^d) := by
  obtain ⟨k, hk, he⟩ := exists_mul_sel d sz px
  have hfst : (place_limit_quant d sz px).1 = (k : ℚ) * step_of d := by
    rw [fst_eq_size_sel d hd, he]
  refine ⟨?_, k, hk, hfst⟩
  rw [hfst]
  exact mul_pos (by exact_mod_cast lt_of_lt_of_le Int.zero_lt_one hk) (step_pos d)

/-- C3, witness. -/
theorem step_compliance_witness : 0 < (place_limit_quant 6 1 5).1 :=
  (step_compliance 6 (by norm_num) 1 5 (by norm_num)).1

/-- C4: quantization is idempotent for every market with `szDecimals = d ≤ 8`:
feeding the quantized (size, price) pair back through `place_limit`'s
quantization returns it unchanged. -/
theorem quantization_idempotent (d : ℕ) (hd : d ≤ 8) (sz px : ℚ) :
    place_limit_quant d (place_limit_quant d sz px).1 (place_limit_quant d sz px).2
      = place_limit_quant d sz px := by
  obtain ⟨k, hk, he⟩ := exists_mul_sel d sz px
  have hfst : (place_limit_quant d sz px).1 = size_sel d sz px :=
    fst_eq_size_sel d hd sz px
  have hS : (place_limit_quant d sz px).1 = (k : ℚ) * step_of d := by
    rw [hfst, he]
  have htr : trunc_size d (place_limit_quant d sz px).1
      = (place_limit_quant d sz px).1 := by
    rw [hS]; exact trunc_size_of_mul d k hk
  have hSpos : 0 < (place_limit_quant d sz px).1 := by
    rw [hS]
    exact mul_pos (by exact_mod_cast lt_of_lt_of_le Int.zero_lt_one hk) (step_pos d)
  have hq2 : quant_px d ((place_limit_quant d sz px).2)
      = (place_limit_quant d sz px).2 := quant_px_idem d px
  refine Prod.ext ?_ ?_
  · show round8 (size_sel d (place_limit_quant d sz px).1 (place_limit_quant d sz px).2)
        = (place_limit_quant d sz px).1
    unfold size_sel
    rw [hq2, htr]
    by_cases hp : 0 < (place_limit_quant d sz px).2
    · have h10 : SPOT_MIN_NOTIONAL ≤
          (place_limit_quant d sz px).2 * (place_limit_quant d sz px).1 :=
        notional_of_pos d hd sz px hp
      rw [if_neg (not_lt.mpr h10), hS, round8_mul_step d hd k]
    · push_neg at hp
      have hc2 : (place_limit_quant d sz px).2 * (place_limit_quant d sz px).1
          < SPOT_MIN_NOTIONAL := by
        have hle : (place_limit_quant d sz px).2 * (place_limit_quant d sz px).1 ≤ 0 :=
          mul_nonpos_iff.mpr (Or.inr ⟨hp, le_of_lt hSpos⟩)
        exact lt_of_le_of_lt hle (by norm_num [SPOT_MIN_NOTIONAL])
      rw [if_pos hc2]
      have hc1 : quant_px d px * trunc_size d sz < SPOT_MIN_NOTIONAL := by
        have hle : quant_px d px * trunc_size d sz ≤ 0 :=
          mul_nonpos_iff.mpr (Or.inr ⟨hp, le_of_lt (trunc_size_pos d sz)⟩)
        exact lt_of_le_of_lt hle (by norm_num [SPOT_MIN_NOTIONAL])
      have hS2 : (place_limit_quant d sz px).1 = bump_size d (quant_px d px) := by
        rw [hfst]; unfold size_sel; rw [if_pos hc1]
      show round8 (bump_size d (quant_px d px)) = (place_limit_quant d sz px).1
      rw [hS2]
      obtain ⟨k2, hk2, he2⟩ := exists_mul_bump d (quant_px d px)
      rw [he2, round8_mul_step d hd k2]
  · show quant_px d ((place_limit_quant d sz px).2) = (place_limit_quant d sz px).2
    exact hq2

/-- C4, witness. -/
theorem quantization_idempotent_witness :
    place_limit_quant 6 (place_limit_quant 6 1 5).1 (place_limit_quant 6 1 5).2
      = place_limit_quant 6 1 5 :=
  quantization_idempotent 6 (by norm_num) 1 5

/-! ### Facts about the resting table and the loop -/

theorem keyEq_refl (o : JVal) (h : valid_oid o = true) : keyEq o o = true := by
  cases o <;> simp_all [keyEq, keyNum, valid_oid]

theorem mem_foldl_erase (ks : List JVal) (m : Table) (p : JVal × ℚ) :
    p ∈ ks.foldl eraseKey m ↔ p ∈ m ∧ ∀ k ∈ ks, keyEq p.1 k = false := by
  induction ks generalizing m with
  | nil => simp
  | cons k ks ih =>
      rw [List.foldl_cons, ih]
      simp only [eraseKey, List.mem_filter, List.forall_mem_cons,
        Bool.not_eq_true', Bool.not_eq_eq_eq_not, Bool.not_true]
      tauto

theorem mem_upsert (m : Table) (k : JVal) (v : ℚ) (p : JVal × ℚ)
    (hp : p ∈ upsert m k v) : (∃ q ∈ m, p.1 = q.1) ∨ p = (k, v) := by
  unfold upsert at hp
  split_ifs at hp
  · rcases List.mem_map.mp hp with ⟨q, hq, hmap⟩
    left
    refine ⟨q, hq, ?_⟩
    split_ifs at hmap <;> rw [← hmap]
  · rcases List.mem_append.mp hp with h | h
    · left; exact ⟨p, h, rfl⟩
    · right; simpa using h

theorem insert_if_valid_inv (m : Table) (o : Option JVal) (now : ℚ)
    (hinv : ∀ p ∈ m, valid_oid p.1 = true) :
    ∀ p ∈ insert_if_valid m o now, valid_oid p.1 = true := by
  intro p hp
  cases o with
  | none => exact hinv p hp
  | some oid =>
      simp only [insert_if_valid] at hp
      split_ifs at hp with hv
      · rcases mem_upsert _ _ _ _ hp with ⟨q, hq, he⟩ | he
        · rw [he]; exact hinv q hq
        · rw [he]; exact hv
      · exact hinv p hp

theorem loop_step_resting_sub (minSpread ttl : ℚ) (mk : Bool) (m : Table)
    (i : StepIn) :
    ∀ p ∈ (loop_step minSpread ttl mk m i).resting,
      p ∈ insert_if_valid (insert_if_valid m (place_limit_result i.ackBuy) i.now)
            (place_limit_result i.ackSell) i.now ∨ p ∈ m := by
  intro p hp
  obtain ⟨bid, ask, now, aB, aS⟩ := i
  cases bid with
  | none => exact Or.inr hp
  | some b =>
      cases ask with
      | none => exact Or.inr hp
      | some a =>
          simp only [loop_step] at hp
          split_ifs at hp
          · exact Or.inr hp
          · exact Or.inr hp
          · left
            exact ((mem_foldl_erase _ _ _).mp hp).1
          · exact Or.inr hp

theorem loop_step_gated (minSpread ttl : ℚ) (mk : Bool) (m : Table)
    (i : StepIn) (h : gate_fails minSpread i) :
    loop_step minSpread ttl mk m i = ⟨m, [], .noBook⟩ ∨
    loop_step minSpread ttl mk m i = ⟨m, [], .belowSpread⟩ := by
  obtain ⟨bid, ask, now, aB, aS⟩ := i
  cases bid with
  | none => left; rfl
  | some b =>
      cases ask with
      | none => left; rfl
      | some a =>
          by_cases hz : b = 0 ∨ a = 0
          · left; simp [loop_step, hz]
          · have hs : spread_pct b a < minSpread := by
              rcases h with h | h | h | h | ⟨b', a', hb', ha', hs⟩ <;>
                simp_all
            right; simp [loop_step, hz, hs]

/-! ### Binary64 evaluation facts

Concrete values of `fl64` and of the two spread computations at the inputs
of the spread-gate claim: the doubles for 100, 100.05 and 0.05, and the
spread they produce. -/

theorem rne_eq_down (q : ℚ) (z : ℤ) (hfl : ⌊q⌋ = z) (hfr : q - (z:ℚ) < 1/2) :
    rne q = z := by
  have hf : Int.fract q < 1/2 := by
    unfold Int.fract
    rw [hfl]
    exact hfr
  unfold rne
  rw [if_pos hf, hfl]

theorem rne_eq_up (q : ℚ) (z : ℤ) (hfl : ⌊q⌋ = z) (hfr : 1/2 < q - (z:ℚ)) :
    rne q = z + 1 := by
  have hf : 1/2 < Int.fract q := by
    unfold Int.fract
    rw [hfl]
    exact hfr
  unfold rne
  rw [if_neg (by linarith), if_pos hf, hfl]

theorem int_log_eval (r : ℚ) (e : ℤ) (hr : 0 < r)
    (h1 : (2:ℚ)^e ≤ r) (h2 : r < (2:ℚ)^(e+1)) : Int.log 2 r = e := by
  have hle : e ≤ Int.log 2 r := by
    rw [← Int.zpow_le_iff_le_log (by norm_num) hr]
    push_cast
    exact h1
  have hlt : Int.log 2 r < e + 1 := by
    rw [← Int.lt_zpow_iff_log_lt (by norm_num) hr]
    push_cast
    exact h2
  omega

theorem fl64_eval_pos (x : ℚ) (e z : ℤ) (hx : 0 < x)
    (hlog : Int.log 2 x = e) (hrne : rne (x / (2:ℚ) ^ (e - 52)) = z) :
    fl64 x = (z:ℚ) * (2:ℚ) ^ (e - 52) := by
  unfold fl64
  rw [if_neg (ne_of_gt hx), abs_of_pos hx, hlog, hrne]

theorem fl64_100 : fl64 100 = 100 := by
  have hlog : Int.log 2 (100:ℚ) = 6 :=
    int_log_eval _ _ (by norm_num) (by norm_num) (by norm_num)
  have hrne : rne ((100:ℚ) / (2:ℚ) ^ ((6:ℤ) - 52)) = 7036874417766400 := by
    rw [show (100:ℚ) / (2:ℚ) ^ ((6:ℤ) - 52) = ((7036874417766400:ℤ) : ℚ)
      by norm_num]
    exact rne_coe_int _
  rw [fl64_eval_pos 100 6 7036874417766400 (by norm_num) hlog hrne]
  norm_num

theorem fl64_10005 : fl64 (10005/100) = 7040392854975283 / 2^46 := by
  have hlog : Int.log 2 (10005/100 : ℚ) = 6 :=
    int_log_eval _ _ (by norm_num) (by norm_num) (by norm_num)
  have hrne : rne ((10005/100 : ℚ) / (2:ℚ) ^ ((6:ℤ) - 52)) = 7040392854975283 := by
    rw [show (10005/100 : ℚ) / (2:ℚ) ^ ((6:ℤ) - 52) = 35201964274876416/5
      by norm_num]
    exact rne_eq_down _ _ (by rw [Int.floor_eq_iff]; norm_num) (by norm_num)
  rw [fl64_eval_pos (10005/100) 6 7040392854975283 (by norm_num) hlog hrne]
  norm_num

theorem fl64_005 : fl64 (1/20) = 3602879701896397 / 2^56 := by
  have hlog : Int.log 2 (1/20 : ℚ) = -5 :=
    int_log_eval _ _ (by norm_num) (by norm_num) (by norm_num)
  have hrne : rne ((1/20 : ℚ) / (2:ℚ) ^ ((-5:ℤ) - 52)) = 7205759403792794 := by
    rw [show (1/20 : ℚ) / (2:ℚ) ^ ((-5:ℤ) - 52) = 36028797018963968/5
      by norm_num]
    rw [show (7205759403792794:ℤ) = 7205759403792793 + 1 by norm_num]
    exact rne_eq_up _ _ (by rw [Int.floor_eq_iff]; norm_num) (by norm_num)
  rw [fl64_eval_pos (1/20) (-5) 7205759403792794 (by norm_num) hlog hrne]
  norm_num

theorem fl64_sub_step : fl64 (3518437208883/2^46) = 3518437208883/2^46 := by
  have hlog : Int.log 2 (3518437208883/2^46 : ℚ) = -5 :=
    int_log_eval _ _ (by norm_num) (by norm_num) (by norm_num)
  have hrne : rne ((3518437208883/2^46 : ℚ) / (2:ℚ) ^ ((-5:ℤ) - 52))
      = 7205759403792384 := by
    rw [show (3518437208883/2^46 : ℚ) / (2:ℚ) ^ ((-5:ℤ) - 52)
        = ((7205759403792384:ℤ) : ℚ) by norm_num]
    exact rne_coe_int _
  rw [fl64_eval_pos _ (-5) 7205759403792384 (by norm_num) hlog hrne]
  norm_num

theorem fl64_div_step :
    fl64 ((3518437208883/2^46 : ℚ) / 100) = 2305843009213563/2^62 := by
  have hlog : Int.log 2 ((3518437208883/2^46 : ℚ) / 100) = -11 :=
    int_log_eval _ _ (by norm_num) (by norm_num) (by norm_num)
  have hrne : rne (((3518437208883/2^46 : ℚ) / 100) / (2:ℚ) ^ ((-11:ℤ) - 52))
      = 4611686018427126 := by
    rw [show ((3518437208883/2^46 : ℚ) / 100) / (2:ℚ) ^ ((-11:ℤ) - 52)
        = 115292150460678144/25 by norm_num]
    rw [show (4611686018427126:ℤ) = 4611686018427125 + 1 by norm_num]
    exact rne_eq_up _ _ (by rw [Int.floor_eq_iff]; norm_num) (by norm_num)
  rw [fl64_eval_pos _ (-11) 4611686018427126 (by norm_num) hlog hrne]
  norm_num

theorem fl64_mul_step :
    fl64 ((2305843009213563/2^62 : ℚ) * 100) = 3518437208883/2^46 := by
  have hlog : Int.log 2 ((2305843009213563/2^62 : ℚ) * 100) = -5 :=
    int_log_eval _ _ (by norm_num) (by norm_num) (by norm_num)
  have hrne : rne (((2305843009213563/2^62 : ℚ) * 100) / (2:ℚ) ^ ((-5:ℤ) - 52))
      = 7205759403792384 := by
    rw [show ((2305843009213563/2^62 : ℚ) * 100) / (2:ℚ) ^ ((-5:ℤ) - 52)
        = 57646075230339075/8 by norm_num]
    exact rne_eq_down _ _ (by rw [Int.floor_eq_iff]; norm_num) (by norm_num)
  rw [fl64_eval_pos _ (-5) 7205759403792384 (by norm_num) hlog hrne]
  norm_num

theorem spread_fp_eval :
    spread_pct_fp 100 (7040392854975283/2^46) = 3518437208883/2^46 := by
  unfold spread_pct_fp
  rw [if_pos (by norm_num)]
  rw [show (7040392854975283/2^46 : ℚ) - 100 = 3518437208883/2^46 by norm_num]
  rw [fl64_sub_step, fl64_div_step, fl64_mul_step]

theorem spread_exact_eval :
    spread_pct 100 (7040392854975283/2^46) = 3518437208883/2^46 := by
  unfold spread_pct
  rw [if_pos (by norm_num)]
  norm_num

/-! ### Claims C5-C10 -/

/-- C5: the acknowledgement classification satisfies the literal decision
table: a `resting`-keyed first status yields (resting, 55); a `filled`-keyed
one yields (filled, 9); an outer status that is not "ok" yields (error, none);
an `error`-keyed first status yields (error, none); and an explicit error
marker wins even when an id is present in the same entry. -/
theorem ack_classification_table :
    extract_status_and_oid (.jobj [("status", .jstr "ok"),
        ("response", .jobj [("data", .jobj [("statuses",
          .jarr [.jobj [("resting", .jobj [("oid", .jint 55)])]])])])])
      = ("resting", some (.jint 55)) ∧
    extract_status_and_oid (.jobj [("status", .jstr "ok"),
        ("response", .jobj [("data", .jobj [("statuses",
          .jarr [.jobj [("filled", .jobj [("oid", .jint 9)])]])])])])
      = ("filled", some (.jint 9)) ∧
    extract_status_and_oid (.jobj [("status", .jstr "err")]) = ("error", none) ∧
    extract_status_and_oid (.jobj [("status", .jstr "ok"),
        ("response", .jobj [("data", .jobj [("statuses",
          .jarr [.jobj [("error", .jstr "bad")]])])])])
      = ("error", none) ∧
    extract_status_and_oid (.jobj [("status", .jstr "ok"),
        ("response", .jobj [("data", .jobj [("statuses",
          .jarr [.jobj [("error", .jstr "bad"), ("oid", .jint 77)]])])])])
      = ("error", none) :=
  ⟨rfl, rfl, rfl, rfl, rfl⟩

/-- C6, counterexample: the claim says `_valid_oid` accepts every non-empty
string other than the literal marker "filled"; but the code compares after
`strip().lower()`, so the non-empty string "FILLED" (≠ "filled") is
rejected. -/
theorem valid_oid_cex :
    valid_oid (.jstr "FILLED") = false ∧
    "FILLED" ≠ "" ∧ "FILLED" ≠ "filled" :=
  ⟨by decide, by decide, by decide⟩

/-- C6 (amended): `_valid_oid` accepts exactly the positive integers
(including Python's `True`, which is the integer 1), and the strings whose
stripped lowercased form is non-empty and differs from "filled"; every other
value is rejected. -/
theorem valid_oid_characterization (v : JVal) :
    valid_oid v = true ↔
      ((∃ n : ℤ, v = .jint n ∧ 0 < n) ∨ v = .jbool true ∨
       (∃ s : String, v = .jstr s ∧ pyLower (pyStrip s) ≠ "" ∧
          pyLower (pyStrip s) ≠ "filled")) := by
  cases v <;> simp [valid_oid]

/-- C7, counterexample: the claim asserts that bid = 100, ask = 100.05
yields spreadPct = 0.05 and that with minSpreadPct = 0.05 the loop proceeds
to quote.  On the real program these inputs are IEEE doubles:
`float("100.05")` is 7040392854975283·2⁻⁴⁶ (below 100.05) and
`float("0.05")` is 3602879701896397·2⁻⁵⁶ (above 0.05), and the computed
spread — whether every intermediate operation of `(ask - bid) / bid * 100`
is rounded to binary64 (`spread_pct_fp`) or the expression is evaluated
exactly on those double inputs (`spread_pct`) — is 3518437208883·2⁻⁴⁶
≈ 0.049999999999997158: not 0.05, and strictly below the double 0.05, so
the iteration takes the idle branch instead of quoting. -/
theorem spread_gate_cex :
    fl64 100 = 100 ∧
    fl64 (10005/100) = 7040392854975283/2^46 ∧
    fl64 (1/20) = 3602879701896397/2^56 ∧
    spread_pct_fp 100 (7040392854975283/2^46) = 3518437208883/2^46 ∧
    spread_pct 100 (7040392854975283/2^46) = 3518437208883/2^46 ∧
    (3518437208883/2^46 : ℚ) ≠ 1/20 ∧
    (3518437208883/2^46 : ℚ) < 3602879701896397/2^56 ∧
    (loop_step (3602879701896397/2^56) 20 true []
        ⟨some 100, some (7040392854975283/2^46), 0, .jnull, .jnull⟩).branch
      = .belowSpread := by
  have hlt : spread_pct 100 (7040392854975283/2^46) < 3602879701896397/2^56 := by
    rw [spread_exact_eval]
    norm_num
  refine ⟨fl64_100, fl64_10005, fl64_005, spread_fp_eval, spread_exact_eval,
    by norm_num, by norm_num, ?_⟩
  simp only [loop_step]
  rw [if_neg (by norm_num), if_pos hlt]

/-- C7 (amended): the spread gate's convention is strict-below rejection: an
iteration idles on the spread gate exactly when both book sides are truthy
and the computed spread is strictly below minSpreadPct, so a computed spread
exactly equal to the minimum passes (boundary inclusive).  At the claim's
concrete input, however, the IEEE-double computation of
spreadPct(bid = 100, ask = 100.05) falls about 2.8·10⁻¹⁵ short of the
double 0.05, so with minSpreadPct = 0.05 that input idles rather than
quotes. -/
theorem spread_gate_strict_below :
    (∀ minSpread ttl : ℚ, ∀ mk : Bool, ∀ m : Table, ∀ b a now : ℚ,
      ∀ aB aS : JVal,
      ((loop_step minSpread ttl mk m ⟨some b, some a, now, aB, aS⟩).branch
          = .belowSpread
        ↔ ¬(b = 0 ∨ a = 0) ∧ spread_pct b a < minSpread)) ∧
    spread_pct_fp (fl64 100) (fl64 (10005/100)) < fl64 (1/20) ∧
    (loop_step (fl64 (1/20)) 20 true []
        ⟨some (fl64 100), some (fl64 (10005/100)), 0, .jnull, .jnull⟩).branch
      = .belowSpread := by
  refine ⟨?_, ?_, ?_⟩
  · intro ms ttl mk m b a now aB aS
    by_cases hz : b = 0 ∨ a = 0
    · simp [loop_step, hz]
    · by_cases hs : spread_pct b a < ms
      · simp [loop_step, hz, hs]
      · simp only [loop_step, hz, hs]
        split_ifs <;> simp_all
  · rw [fl64_100, fl64_10005, fl64_005, spread_fp_eval]
    norm_num
  · rw [fl64_100, fl64_10005, fl64_005]
    have hlt : spread_pct 100 (7040392854975283/2^46)
        < 3602879701896397/2^56 := by
      rw [spread_exact_eval]
      norm_num
    simp only [loop_step]
    rw [if_neg (by norm_num), if_pos hlt]

/-- C8: during a TTL sweep, every table entry of age at least `ttl` has its
cancel attempted (it is a valid oid, as table keys are) and is removed from
the table unconditionally, while every entry of age strictly below `ttl`
(with no other entry under a Python-equal key) is kept. -/
theorem ttl_eviction (ttl now : ℚ) (m : Table) (oid : JVal) (t0 : ℚ)
    (hv : valid_oid oid = true) (hmem : (oid, t0) ∈ m) :
    (ttl ≤ now - t0 →
      oid ∈ (ttl_sweep ttl now m).2 ∧
      ∀ t, (oid, t) ∉ (ttl_sweep ttl now m).1) ∧
    (now - t0 < ttl → (∀ p ∈ m, keyEq oid p.1 = true → p.2 = t0) →
      (oid, t0) ∈ (ttl_sweep ttl now m).1) := by
  constructor
  · intro hexp
    have hc : oid ∈ to_cancel ttl now m := by
      unfold to_cancel
      exact List.mem_map.mpr
        ⟨(oid, t0), List.mem_filter.mpr ⟨hmem, by simpa using hexp⟩, rfl⟩
    constructor
    · show oid ∈ (to_cancel ttl now m).filter (fun o => valid_oid o)
      exact List.mem_filter.mpr ⟨hc, hv⟩
    · intro t hin
      have h2 := ((mem_foldl_erase _ _ _).mp hin).2 oid hc
      rw [keyEq_refl oid hv] at h2
      exact Bool.true_eq_false.mp h2
  · intro hlt huniq
    show (oid, t0) ∈ (to_cancel ttl now m).foldl eraseKey m
    rw [mem_foldl_erase]
    refine ⟨hmem, ?_⟩
    intro k hk
    rcases List.mem_map.mp hk with ⟨p, hpmem, rfl⟩
    rcases List.mem_filter.mp hpmem with ⟨hpm, hpage⟩
    by_contra hne
    rw [Bool.not_eq_false] at hne
    have hp2 := huniq p hpm hne
    have hage : ttl ≤ now - p.2 := by simpa using hpage
    rw [hp2] at hage
    linarith

/-- C8, witness: with `ttl = 20`, an order recorded at time 0 is still in the
table at the sweep at t = 19, and at t = 21 its cancel is attempted and it is
gone. -/
theorem ttl_eviction_witness :
    (JVal.jint 1, (0:ℚ)) ∈ (ttl_sweep 20 19 [(JVal.jint 1, (0:ℚ))]).1 ∧
    JVal.jint 1 ∈ (ttl_sweep 20 21 [(JVal.jint 1, (0:ℚ))]).2 ∧
    (JVal.jint 1, (0:ℚ)) ∉ (ttl_sweep 20 21 [(JVal.jint 1, (0:ℚ))]).1 := by
  have h19 := ttl_eviction 20 19 [(JVal.jint 1, (0:ℚ))] (JVal.jint 1) 0
    (by decide) (List.mem_singleton.mpr rfl)
  have h21 := ttl_eviction 20 21 [(JVal.jint 1, (0:ℚ))] (JVal.jint 1) 0
    (by decide) (List.mem_singleton.mpr rfl)
  refine ⟨h19.2 (by norm_num) ?_, (h21.1 (by norm_num)).1,
    (h21.1 (by norm_num)).2 0⟩
  intro p hp _
  rw [List.mem_singleton.mp hp]

/-- C9: the resting-table invariant — every key satisfies `_valid_oid` (in
particular it is never the sentinel string "filled" nor `None`) — is
preserved by every loop iteration, whatever branch is taken and whatever
acknowledgements the gateway returns. -/
theorem resting_table_invariant (minSpread ttl : ℚ) (mk : Bool) (m : Table)
    (i : StepIn) (hinv : ∀ p ∈ m, valid_oid p.1 = true) :
    ∀ p ∈ (loop_step minSpread ttl mk m i).resting,
      valid_oid p.1 = true ∧ p.1 ≠ .jstr "filled" ∧ p.1 ≠ .jnull := by
  have main : ∀ p ∈ (loop_step minSpread ttl mk m i).resting,
      valid_oid p.1 = true := by
    intro p hp
    rcases loop_step_resting_sub minSpread ttl mk m i p hp with h | h
    · exact insert_if_valid_inv _ _ _ (insert_if_valid_inv _ _ _ hinv) p h
    · exact hinv p h
  intro p hp
  refine ⟨main p hp, ?_, ?_⟩
  · intro hcontra
    have hval := main p hp
    rw [hcontra] at hval
    exact absurd hval (by decide)
  · intro hcontra
    have hval := main p hp
    rw [hcontra] at hval
    exact absurd hval (by decide)

/-- C9, witness: applying the invariant preservation to a singleton table
through one (gated) iteration. -/
theorem resting_table_invariant_witness :
    valid_oid (JVal.jint 5) = true ∧ JVal.jint 5 ≠ JVal.jstr "filled" ∧
      JVal.jint 5 ≠ JVal.jnull :=
  resting_table_invariant 1 20 true [(JVal.jint 5, (0:ℚ))]
    ⟨none, none, 0, .jnull, .jnull⟩
    (by
      intro p hp
      rw [List.mem_singleton.mp hp]
      decide)
    (JVal.jint 5, (0:ℚ))
    (show (JVal.jint 5, (0:ℚ)) ∈ ([(JVal.jint 5, (0:ℚ))] : Table) from
      List.mem_singleton.mpr rfl)

/-- C10: the TTL sweep runs only in iterations that pass the book-presence
and spread gates (the branch is `quoted` only then); across any run of
iterations whose gates all fail, no cancel is attempted and the resting
table — including entries already older than the TTL — is left untouched. -/
theorem no_eviction_when_gated (minSpread ttl : ℚ) (mk : Bool) (m : Table)
    (inps : List StepIn) :
    (∀ i ∈ inps, gate_fails minSpread i) →
    run_resting minSpread ttl mk m inps = m ∧
    ∀ i ∈ inps, (loop_step minSpread ttl mk m i).cancelled = [] ∧
      (loop_step minSpread ttl mk m i).branch ≠ .quoted := by
  induction inps with
  | nil => exact fun _ => ⟨rfl, by simp⟩
  | cons i rest ih =>
      intro hall
      have hi := hall i (List.mem_cons_self i rest)
      have hrest := ih (fun j hj => hall j (List.mem_cons_of_mem i hj))
      rcases loop_step_gated minSpread ttl mk m i hi with h | h <;>
      · constructor
        · show run_resting minSpread ttl mk
              (loop_step minSpread ttl mk m i).resting rest = m
          rw [h]
          exact hrest.1
        · intro j hj
          rcases List.mem_cons.mp hj with rfl | hj'
          · rw [h]
            exact ⟨rfl, by simp⟩
          · exact hrest.2 j hj'

/-- C10, witness: an entry aged far past the TTL survives an iteration whose
book is absent. -/
theorem no_eviction_when_gated_witness :
    run_resting (1/20) 20 true [(JVal.jint 7, (0:ℚ))]
      [⟨none, none, 100, .jnull, .jnull⟩] = [(JVal.jint 7, (0:ℚ))] :=
  (no_eviction_when_gated (1/20) 20 true [(JVal.jint 7, (0:ℚ))]
    [⟨none, none, 100, .jnull, .jnull⟩]
    (by
      intro i hi
      rw [List.mem_singleton.mp hi]
      exact Or.inl rfl)).1

end HyperBot
